import Mathlib

/-!
Verification development for the ethereal guitar harmonizer
(src/harmonizer.cpp). The per-sample DSP core is embedded shallowly over
the rationals: every float of the source becomes an exact rational, every
stateful routine becomes explicit state passing. External DSP primitives
(the Svf filter, the oscillator, the Port smoother) are out of scope and
enter only through their per-sample outputs, which the embedded functions
take as arguments.
-/

/--
State of the class ZeroCrossingPitchDetector, fields in source order:
sr_, state_, samples_since_last_, freq_, certainty_, filtered_in_,
threshold_, dc_block_, prev_in_. The sample counter is an int in C that
only ever holds nonnegative values, modelled as a natural number.
-/
@[ext]
structure ZeroCrossingPitchDetector where
  sr : ℚ
  state : ℕ
  samplesSinceLast : ℕ
  freq : ℚ
  certainty : ℚ
  filteredIn : ℚ
  threshold : ℚ
  dcBlock : ℚ
  prevIn : ℚ
deriving Repr, DecidableEq

/--
Init(sample_rate) followed by the private reset(): state_ = 0,
samples_since_last_ = 0, freq_ = 440, certainty_ = 0, filtered_in_ = 0,
threshold_ = 0.01, dc_block_ = 0, prev_in_ = 0.
-/
def ZeroCrossingPitchDetector.init (sample_rate : ℚ) : ZeroCrossingPitchDetector :=
  ⟨sample_rate, 0, 0, 440, 0, 0, 1/100, 0, 0⟩

/--
The DC blocker of Process: dc_block_ = in - prev_in_ + 0.995 * dc_block_,
then snapped to exact zero when its magnitude is below 1e-6.
-/
def dcNext (p : ZeroCrossingPitchDetector) (input : ℚ) : ℚ :=
  let d := input - p.prevIn + (199/200) * p.dcBlock
  if |d| < 1/1000000 then 0 else d

/--
The one-pole lowpass of Process: filtered_in_ = dc * 0.1 + filtered_in_ * 0.9,
snapped to exact zero below 1e-6 (denormal protection).
-/
def filteredNext (p : ZeroCrossingPitchDetector) (input : ℚ) : ℚ :=
  let f := dcNext p input * (1/10) + p.filteredIn * (9/10)
  if |f| < 1/1000000 then 0 else f

/--
The zero-crossing state machine of Process, lines 54-72 of the source:
on a rising crossing (state_ == 0 and filtered input above +0.002) arm
state_ = 1; if the hold-off window passed (samples_since_last_ > 30)
compute new_freq = sr_ / samples_since_last_, blend it into freq_ with
weights 0.7 / 0.3 and set certainty_ = 1 when 60 < new_freq < 1500, and
reset the counter; on a falling crossing (state_ == 1 and filtered input
below -0.002) disarm.
-/
def crossStep (p : ZeroCrossingPitchDetector) (fi : ℚ) : ZeroCrossingPitchDetector :=
  if p.state = 0 ∧ 1/500 < fi then
    if 30 < p.samplesSinceLast then
      if 60 < p.sr / (p.samplesSinceLast : ℚ) ∧ p.sr / (p.samplesSinceLast : ℚ) < 1500 then
        { p with state := 1, samplesSinceLast := 0,
                 freq := p.freq * (7/10) + (p.sr / (p.samplesSinceLast : ℚ)) * (3/10),
                 certainty := 1 }
      else
        { p with state := 1, samplesSinceLast := 0 }
    else
      { p with state := 1 }
  else if p.state = 1 ∧ fi < -(1/500) then
    { p with state := 0 }
  else
    p

/--
One call of ZeroCrossingPitchDetector::Process(in): DC blocker, lowpass,
zero-crossing state machine, then samples_since_last_++ and the certainty
decay certainty_ *= 0.99995 with snap to 0 below 1e-6.
-/
def ZeroCrossingPitchDetector.Process (p : ZeroCrossingPitchDetector) (input : ℚ) :
    ZeroCrossingPitchDetector :=
  let dc := dcNext p input
  let fi := filteredNext p input
  let q := crossStep p fi
  let ct := q.certainty * (99995/100000)
  { q with dcBlock := dc, prevIn := input, filteredIn := fi,
           samplesSinceLast := q.samplesSinceLast + 1,
           certainty := if ct < 1/1000000 then 0 else ct }

/-- Feeding a list of input samples through Process, first sample first. -/
def runDetector (p : ZeroCrossingPitchDetector) (inputs : List ℚ) :
    ZeroCrossingPitchDetector :=
  inputs.foldl ZeroCrossingPitchDetector.Process p

/-- The detector state after 40 silent samples at a 48 kHz sample rate. -/
def zeroFeed40 : ZeroCrossingPitchDetector :=
  runDetector (ZeroCrossingPitchDetector.init 48000) (List.replicate 40 0)

/--
The 6 x 15 pitch quantization matrix `scales` (Chromatic, Major, Minor,
Major Pentatonic, Minor Pentatonic, Blues), MIDI degrees rooted at C2 = 36.
-/
def scales : Fin 6 → Fin 15 → ℚ :=
  ![![36, 37, 38, 39, 40, 41, 42, 43, 44, 45, 46, 47, 48, 49, 50],
    ![36, 38, 40, 41, 43, 45, 47, 48, 50, 52, 53, 55, 57, 59, 60],
    ![36, 38, 39, 41, 43, 44, 46, 48, 50, 51, 53, 55, 56, 58, 60],
    ![36, 38, 40, 43, 45, 48, 50, 52, 55, 57, 60, 62, 64, 67, 69],
    ![36, 39, 41, 43, 46, 48, 51, 53, 55, 58, 60, 63, 65, 67, 70],
    ![36, 39, 41, 42, 43, 46, 48, 51, 53, 54, 55, 58, 60, 63, 65]]

/--
The candidate notes visited by the quantization loop, in loop order:
outer octave offset oct = 0..4, inner degree n = 0..14, candidate
= scales[current_scale][n] + oct * 12.
-/
def candidates (s : Fin 6) : List ℚ :=
  (List.finRange 5).flatMap fun oct =>
    (List.finRange 15).map fun n => scales s n + ((oct : ℕ) : ℚ) * 12

/--
The body of the quantization loop: keep the running (closest, min_diff)
pair and replace it when the distance of the next candidate is strictly
smaller (line 270 of the source uses a strict comparison, so the first
minimum found wins).
-/
def selStep {α : Type} (f : α → ℚ) (cm : α × ℚ) (x : α) : α × ℚ :=
  if f x < cm.2 then (x, f x) else cm

/--
The nearest-note search of the audio callback, lines 263-275: closest is
initialized to scales[current_scale][0], min_diff to 1000, and the nested
loop scans all 75 candidates comparing fabsf(raw_harm - candidate).
-/
def quantSearch (raw : ℚ) (s : Fin 6) : ℚ :=
  ((candidates s).foldl (selStep fun c => |raw - c|) (scales s 0, 1000)).1

/-- Smart interval, line 260: a fifth for pentatonic and blues scales (index at least 3), a third otherwise. -/
def intervalFor (s : Fin 6) : ℚ :=
  if 3 ≤ (s : ℕ) then 7 else 4

/-- The raw harmony target, line 261: detected fractional MIDI plus the scale-dependent interval. -/
def rawHarm (s : Fin 6) (inputMidi : ℚ) : ℚ :=
  inputMidi + intervalFor s

/--
The committed-target update, lines 252-277: when certainty exceeds 0.85
and the gate is open, quantize the raw harmony target and replace
last_target_midi only when the result differs from it by more than half a
semitone.
-/
def targetStep (gateOpen : Bool) (certainty inputMidi lastTarget : ℚ) (s : Fin 6) : ℚ :=
  if 17/20 < certainty ∧ gateOpen = true then
    if 1/2 < |quantSearch (rawHarm s inputMidi) s - lastTarget| then
      quantSearch (rawHarm s inputMidi) s
    else lastTarget
  else lastTarget

/--
The Schmitt-trigger gate update, lines 245-249: a closed gate opens when
the envelope exceeds the on-threshold, an open gate closes when the
envelope falls below the off-threshold, otherwise the state is kept.
-/
def gateStep (gateOpen : Bool) (level threshOn threshOff : ℚ) : Bool :=
  if gateOpen = false ∧ threshOn < level then true
  else if gateOpen = true ∧ level < threshOff then false
  else gateOpen

/--
Folding the gate over a list of (level, on-threshold, off-threshold)
triples, one per sample.
-/
def runGate (gateOpen : Bool) (steps : List (ℚ × ℚ × ℚ)) : Bool :=
  steps.foldl (fun g t => gateStep g t.1 t.2.1 t.2.2) gateOpen

/-- Hard clamp to [0, 1], fmaxf(0, fminf(1, x)) as on lines 187-192 and 293. -/
def clamp01 (x : ℚ) : ℚ :=
  max 0 (min 1 x)

/--
Block-rate smoothing of the (clamped) gate knob, lines 190 and 199:
smooth_gate += 0.05 * (gate_knob - smooth_gate).
-/
def smoothStep (s knob : ℚ) : ℚ :=
  s + (1/20) * (clamp01 knob - s)

/-- The smoothed gate knob after a list of raw readings, starting from its initial value 0.1 (line 164). -/
def runSmoothGate (knobs : List ℚ) : ℚ :=
  knobs.foldl smoothStep (1/10)

/-- Gate on-threshold, line 241: (smooth_gate * smooth_gate) * 0.05. -/
def gateThreshOn (smoothGate : ℚ) : ℚ :=
  (smoothGate * smoothGate) * (1/20)

/-- Gate off-threshold, line 242: half of the on-threshold. -/
def gateThreshOff (threshOn : ℚ) : ℚ :=
  threshOn * (1/2)

/-- Scale selection, line 203: (int)(scale_knob * 5.99) on the clamped knob. The operand is nonnegative, where the C truncation toward zero coincides with the floor. -/
def scaleIdxOf (knob : ℚ) : ℤ :=
  ⌊clamp01 knob * (599/100)⌋

/--
The VCA slew limiter, lines 298-300: slew rate 0.01 when the target is
above the current gain (attack), 0.0001 otherwise (release); then snap to
the target when within 1e-6 of it.
-/
def vcaStep (target cur : ℚ) : ℚ :=
  let slew := if cur < target then 1/100 else 1/10000
  let next := cur + slew * (target - cur)
  if |next - target| < 1/1000000 then target else next

/-- VCA gain after n samples of a constant target 1, starting from gain 0. -/
def attackGain : ℕ → ℚ
  | 0 => 0
  | n + 1 => vcaStep 1 (attackGain n)

/-- VCA gain after n samples of a constant target 0, starting from gain 1. -/
def releaseGain : ℕ → ℚ
  | 0 => 1
  | n + 1 => vcaStep 0 (releaseGain n)

/--
The VCA target, lines 291-293: the envelope boosted by 4 when confident
and the gate is open, else 0, hard clamped to [0, 1].
-/
def vcaTarget (confident gateOpen : Bool) (env : ℚ) : ℚ :=
  clamp01 (if confident && gateOpen then env * 4 else 0)

/--
The output stage, lines 291-308: compute the VCA target, slew the gain,
apply it to the harmony signal, pass the dry input through untouched, and
form the dual-mono mix. Returns (new VCA gain, left output, right output).
-/
def outputStage (input harmSig env mix curVca : ℚ) (confident gateOpen : Bool) :
    ℚ × ℚ × ℚ :=
  let target := vcaTarget confident gateOpen env
  let vca := vcaStep target curVca
  let harm := harmSig * vca
  let gatedInput := input
  let o := gatedInput * (1 - mix) + harm * mix
  (vca, o, o)

/-!
Helper lemmas shared by the claim theorems.
-/

/-- Effect of the zero-crossing state machine on the frequency estimate. -/
lemma crossStep_freq (p : ZeroCrossingPitchDetector) (fi : ℚ) :
    (crossStep p fi).freq =
      if p.state = 0 ∧ 1/500 < fi ∧ 30 < p.samplesSinceLast ∧
         60 < p.sr / (p.samplesSinceLast : ℚ) ∧ p.sr / (p.samplesSinceLast : ℚ) < 1500
      then p.freq * (7/10) + (p.sr / (p.samplesSinceLast : ℚ)) * (3/10)
      else p.freq := by
  unfold crossStep
  split_ifs <;> first | rfl | tauto

/-- Effect of the zero-crossing state machine on the certainty value. -/
lemma crossStep_certainty (p : ZeroCrossingPitchDetector) (fi : ℚ) :
    (crossStep p fi).certainty =
      if p.state = 0 ∧ 1/500 < fi ∧ 30 < p.samplesSinceLast ∧
         60 < p.sr / (p.samplesSinceLast : ℚ) ∧ p.sr / (p.samplesSinceLast : ℚ) < 1500
      then 1
      else p.certainty := by
  unfold crossStep
  split_ifs <;> first | rfl | tauto

/--
The certainty after one Process call: 1.0 times the decay factor on an
accepting call, the snapped decay of the previous value otherwise.
-/
lemma Process_certainty_eq (p : ZeroCrossingPitchDetector) (x : ℚ) :
    (p.Process x).certainty =
      (if p.state = 0 ∧ 1/500 < filteredNext p x ∧ 30 < p.samplesSinceLast ∧
          60 < p.sr / (p.samplesSinceLast : ℚ) ∧ p.sr / (p.samplesSinceLast : ℚ) < 1500
       then 99995/100000
       else if p.certainty * (99995/100000) < 1/1000000 then 0
            else p.certainty * (99995/100000)) := by
  show (if (crossStep p (filteredNext p x)).certainty * (99995/100000) < 1/1000000 then 0
        else (crossStep p (filteredNext p x)).certainty * (99995/100000)) = _
  rw [crossStep_certainty]
  by_cases h : p.state = 0 ∧ 1/500 < filteredNext p x ∧ 30 < p.samplesSinceLast ∧
      60 < p.sr / (p.samplesSinceLast : ℚ) ∧ p.sr / (p.samplesSinceLast : ℚ) < 1500
  · rw [if_pos h, if_pos h]
    norm_num
  · rw [if_neg h, if_neg h]

/-- An all-zero input only advances the sample counter of a freshly initialized detector. -/
lemma runDetector_zero (sample_rate : ℚ) (n : ℕ) :
    runDetector (ZeroCrossingPitchDetector.init sample_rate) (List.replicate n 0) =
      { ZeroCrossingPitchDetector.init sample_rate with samplesSinceLast := n } := by
  induction n with
  | zero => rfl
  | succ n ih =>
    rw [List.replicate_succ']
    unfold runDetector at ih ⊢
    rw [List.foldl_append, ih]
    simp only [List.foldl_cons, List.foldl_nil]
    unfold ZeroCrossingPitchDetector.Process crossStep filteredNext dcNext
      ZeroCrossingPitchDetector.init
    norm_num

/--
Specification of the strict-improvement selection fold: either no element
beat the initial bound, or the result is the first element attaining the
minimal value of f, every element of the prefix before it being strictly
worse and every element of the whole list no better.
-/
lemma selFold_spec {α : Type} (f : α → ℚ) (l : List α) :
    ∀ (c0 : α) (m0 : ℚ),
      (l.foldl (selStep f) (c0, m0) = (c0, m0) ∧ ∀ x ∈ l, m0 ≤ f x) ∨
      ((l.foldl (selStep f) (c0, m0)).2 < m0 ∧
        (∃ l1 l2, l = l1 ++ (l.foldl (selStep f) (c0, m0)).1 :: l2 ∧
          ∀ y ∈ l1, (l.foldl (selStep f) (c0, m0)).2 < f y) ∧
        (l.foldl (selStep f) (c0, m0)).2 = f (l.foldl (selStep f) (c0, m0)).1 ∧
        ∀ x ∈ l, (l.foldl (selStep f) (c0, m0)).2 ≤ f x) := by
  induction l with
  | nil =>
    intro c0 m0
    exact Or.inl ⟨rfl, by simp⟩
  | cons x t ih =>
    intro c0 m0
    rw [List.foldl_cons]
    by_cases h : f x < m0
    · rw [show selStep f (c0, m0) x = (x, f x) from if_pos h]
      rcases ih x (f x) with ⟨heq, hall⟩ | ⟨hlt, ⟨l1, l2, hsplit, hpre⟩, hval, hall⟩
      · right
        rw [heq]
        refine ⟨h, ⟨[], t, by simp, by simp⟩, rfl, ?_⟩
        intro z hz
        rcases List.mem_cons.mp hz with rfl | hz
        · exact le_refl _
        · exact hall z hz
      · right
        refine ⟨lt_trans hlt h, ⟨x :: l1, l2, by rw [List.cons_append, ← hsplit], ?_⟩,
          hval, ?_⟩
        · intro y hy
          rcases List.mem_cons.mp hy with rfl | hy
          · exact hlt
          · exact hpre y hy
        · intro z hz
          rcases List.mem_cons.mp hz with rfl | hz
          · exact le_of_lt hlt
          · exact hall z hz
    · rw [show selStep f (c0, m0) x = (c0, m0) from if_neg h]
      push_neg at h
      rcases ih c0 m0 with ⟨heq, hall⟩ | ⟨hlt, ⟨l1, l2, hsplit, hpre⟩, hval, hall⟩
      · left
        refine ⟨heq, ?_⟩
        intro z hz
        rcases List.mem_cons.mp hz with rfl | hz
        · exact h
        · exact hall z hz
      · right
        refine ⟨hlt, ⟨x :: l1, l2, by rw [List.cons_append, ← hsplit], ?_⟩, hval, ?_⟩
        · intro y hy
          rcases List.mem_cons.mp hy with rfl | hy
          · exact lt_of_lt_of_le hlt h
          · exact hpre y hy
        · intro z hz
          rcases List.mem_cons.mp hz with rfl | hz
          · exact le_trans (le_of_lt hlt) h
          · exact hall z hz

/-- Every table degree shifted by one of the five octave offsets is among the visited candidates. -/
lemma mem_candidates (s : Fin 6) (n : Fin 15) (oct : Fin 5) :
    scales s n + ((oct : ℕ) : ℚ) * 12 ∈ candidates s := by
  unfold candidates
  exact List.mem_flatMap.mpr ⟨oct, List.mem_finRange oct,
    List.mem_map.mpr ⟨n, List.mem_finRange n, rfl⟩⟩

/-- Every row of the scale table starts at C2 = MIDI 36. -/
lemma scales_zero (s : Fin 6) : scales s 0 = 36 := by
  fin_cases s <;> rfl

/--
Closed form of the attack trajectory: the gain either has already snapped
to the target 1, or it equals 1 - 0.99^n with the remaining distance still
at least the snap floor.
-/
lemma attackGain_cases (n : ℕ) :
    attackGain n = 1 ∨
    (attackGain n = 1 - (99/100 : ℚ) ^ n ∧ (1 : ℚ)/1000000 ≤ (99/100 : ℚ) ^ n) := by
  induction n with
  | zero => right; norm_num [attackGain]
  | succ n ih =>
    have hstep : attackGain (n + 1) = vcaStep 1 (attackGain n) := rfl
    rcases ih with h | ⟨h, hp⟩
    · left
      rw [hstep, h]
      simp only [vcaStep]
      norm_num
    · have hp0 : (0 : ℚ) < (99/100 : ℚ) ^ n := by positivity
      have hlt : attackGain n < 1 := by rw [h]; linarith
      have hval : attackGain n + 1/100 * (1 - attackGain n) = 1 - (99/100 : ℚ) ^ (n + 1) := by
        rw [h, pow_succ]; ring
      have habs : |attackGain n + 1/100 * (1 - attackGain n) - 1| = (99/100 : ℚ) ^ (n + 1) := by
        rw [hval, show (1 : ℚ) - (99/100 : ℚ) ^ (n + 1) - 1 = -((99/100 : ℚ) ^ (n + 1)) by ring,
          abs_neg, abs_of_pos (by positivity)]
      rw [hstep]
      simp only [vcaStep]
      rw [if_pos hlt, habs]
      by_cases hsnap : (99/100 : ℚ) ^ (n + 1) < 1/1000000
      · left
        rw [if_pos hsnap]
      · right
        rw [if_neg hsnap]
        exact ⟨hval, not_lt.mp hsnap⟩

/--
Closed form of the release trajectory: either the gain equals 0.9999^n
with the distance still at least the snap floor, or it has snapped to 0,
in which case some step index j at most n already had 0.9999^j below the
floor.
-/
lemma releaseGain_cases (n : ℕ) :
    (releaseGain n = (9999/10000 : ℚ) ^ n ∧ (1 : ℚ)/1000000 ≤ (9999/10000 : ℚ) ^ n) ∨
    (releaseGain n = 0 ∧ ∃ j : ℕ, j ≤ n ∧ (9999/10000 : ℚ) ^ j < 1/1000000) := by
  induction n with
  | zero => left; norm_num [releaseGain]
  | succ n ih =>
    have hstep : releaseGain (n + 1) = vcaStep 0 (releaseGain n) := rfl
    rcases ih with ⟨h, hp⟩ | ⟨h, j, hj, hjlt⟩
    · have hq0 : (0 : ℚ) < (9999/10000 : ℚ) ^ n := by positivity
      have hge : ¬ (releaseGain n < 0) := by rw [h]; exact not_lt.mpr (le_of_lt hq0)
      have hval : releaseGain n + 1/10000 * (0 - releaseGain n) = (9999/10000 : ℚ) ^ (n + 1) := by
        rw [h, pow_succ]; ring
      have habs : |releaseGain n + 1/10000 * (0 - releaseGain n) - 0| =
          (9999/10000 : ℚ) ^ (n + 1) := by
        rw [sub_zero, hval, abs_of_pos (by positivity)]
      rw [hstep]
      simp only [vcaStep]
      rw [if_neg hge, habs]
      by_cases hsnap : (9999/10000 : ℚ) ^ (n + 1) < 1/1000000
      · right
        rw [if_pos hsnap]
        exact ⟨rfl, n + 1, le_refl _, hsnap⟩
      · left
        rw [if_neg hsnap]
        exact ⟨hval, not_lt.mp hsnap⟩
    · have hge : ¬ (releaseGain n < 0) := by rw [h]; norm_num
      rw [hstep]
      simp only [vcaStep]
      rw [if_neg hge, h]
      norm_num
      exact Or.inr ⟨j, le_trans hj (Nat.le_succ n), hjlt⟩

/-- One attack step covers more ground than two release steps: 0.99^(k+1) is at most 0.9999^(k+2). -/
lemma pow_99_le (k : ℕ) : ((99 : ℚ)/100) ^ (k + 1) ≤ ((9999 : ℚ)/10000) ^ (k + 2) := by
  have h1 : ((99 : ℚ)/100) ^ k ≤ ((9999 : ℚ)/10000) ^ k :=
    pow_le_pow_left₀ (by norm_num) (by norm_num) k
  have h2 : ((99 : ℚ)/100) ≤ ((9999 : ℚ)/10000) ^ 2 := by norm_num
  calc ((99 : ℚ)/100) ^ (k + 1) = ((99 : ℚ)/100) ^ k * ((99 : ℚ)/100) := by rw [pow_succ]
    _ ≤ ((9999 : ℚ)/10000) ^ k * ((9999 : ℚ)/10000) ^ 2 :=
        mul_le_mul h1 h2 (by norm_num) (by positivity)
    _ = ((9999 : ℚ)/10000) ^ (k + 2) := by rw [← pow_add]

/-!
Claim theorems.
-/

/--
C1: in a call to ZeroCrossingPitchDetector::Process the frequency estimate
changes exactly when a rising zero crossing fires (armed state, filtered
input above 0.002) with more than 30 elapsed samples and a candidate
frequency sample_rate / elapsed strictly between 60 and 1500 Hz; the new
estimate is then 0.7 times the old plus 0.3 times the candidate, and in
every other case the previous estimate is returned unchanged.
-/
theorem freq_update_rule (p : ZeroCrossingPitchDetector) (x : ℚ) :
    (p.Process x).freq =
      if p.state = 0 ∧ 1/500 < filteredNext p x ∧ 30 < p.samplesSinceLast ∧
         60 < p.sr / (p.samplesSinceLast : ℚ) ∧ p.sr / (p.samplesSinceLast : ℚ) < 1500
      then p.freq * (7/10) + (p.sr / (p.samplesSinceLast : ℚ)) * (3/10)
      else p.freq :=
  crossStep_freq p (filteredNext p x)

/--
C2 counterexample: after 40 silent samples the 41st input of 1.0 triggers
an accepting crossing (all acceptance conditions are shown to hold), yet
GetCertainty() right after that Process call is not 1.0 (it is 0.99995,
because the per-sample decay runs after the reset inside the same call).
-/
theorem certainty_after_accept_ne_one :
    (zeroFeed40.state = 0 ∧ 1/500 < filteredNext zeroFeed40 1 ∧
     30 < zeroFeed40.samplesSinceLast ∧
     60 < zeroFeed40.sr / (zeroFeed40.samplesSinceLast : ℚ) ∧
     zeroFeed40.sr / (zeroFeed40.samplesSinceLast : ℚ) < 1500) ∧
    (zeroFeed40.Process 1).certainty ≠ 1 := by
  have h40 : zeroFeed40 =
      { ZeroCrossingPitchDetector.init 48000 with samplesSinceLast := 40 } :=
    runDetector_zero 48000 40
  rw [h40]
  constructor
  · unfold filteredNext dcNext ZeroCrossingPitchDetector.init
    norm_num [abs]
  · rw [Process_certainty_eq]
    unfold filteredNext dcNext ZeroCrossingPitchDetector.init
    norm_num [abs]

/--
C2 (amended): certainty is set to 1.0 by a validated in-band crossing and
then multiplied by the per-sample decay 0.99995 before Process returns,
so GetCertainty() is 0.99995 right after an accepting call; on every
non-accepting sample the previous certainty is multiplied by 0.99995 and
snapped to 0 below 1e-6; for an all-zero input sequence certainty stays
at its initial value 0.
-/
theorem certainty_update_rule (p : ZeroCrossingPitchDetector) (x : ℚ) :
    ((p.Process x).certainty =
      (if p.state = 0 ∧ 1/500 < filteredNext p x ∧ 30 < p.samplesSinceLast ∧
          60 < p.sr / (p.samplesSinceLast : ℚ) ∧ p.sr / (p.samplesSinceLast : ℚ) < 1500
       then 99995/100000
       else if p.certainty * (99995/100000) < 1/1000000 then 0
            else p.certainty * (99995/100000))) ∧
    ∀ (sample_rate : ℚ) (n : ℕ),
      (runDetector (ZeroCrossingPitchDetector.init sample_rate)
        (List.replicate n 0)).certainty = 0 := by
  refine ⟨Process_certainty_eq p x, ?_⟩
  intro sample_rate n
  rw [runDetector_zero]
  rfl

/--
C3: the gate obeys the Schmitt-trigger rule: over any sequence of
(level, on-threshold, off-threshold) samples whose level stays strictly
between the two thresholds the gate state never changes, a closed gate
opens exactly when the level exceeds the on-threshold, and an open gate
closes exactly when the level falls below the off-threshold.
-/
theorem gate_schmitt (g : Bool) (steps : List (ℚ × ℚ × ℚ))
    (h : ∀ t ∈ steps, t.2.2 < t.1 ∧ t.1 < t.2.1) :
    runGate g steps = g ∧
    (∀ level threshOn threshOff : ℚ,
      (gateStep false level threshOn threshOff = true ↔ threshOn < level)) ∧
    (∀ level threshOn threshOff : ℚ,
      (gateStep true level threshOn threshOff = false ↔ level < threshOff)) := by
  refine ⟨?_, ?_, ?_⟩
  · induction steps with
    | nil => rfl
    | cons t ts ih =>
      have ht := h t (List.mem_cons_self _ _)
      have hstep : gateStep g t.1 t.2.1 t.2.2 = g := by
        unfold gateStep
        have hna : ¬ (t.2.1 < t.1) := not_lt.mpr (le_of_lt ht.2)
        have hnb : ¬ (t.1 < t.2.2) := not_lt.mpr (le_of_lt ht.1)
        cases g <;> simp [hna, hnb]
      unfold runGate at ih ⊢
      rw [List.foldl_cons, hstep]
      exact ih fun t' ht' => h t' (List.mem_cons_of_mem _ ht')
  · intro level threshOn threshOff
    unfold gateStep
    by_cases hc : threshOn < level
    · simp [hc]
    · simp [hc]
  · intro level threshOn threshOff
    unfold gateStep
    by_cases hc : level < threshOff
    · simp [hc]
    · simp [hc]

/-- Witness for C3: a closed gate fed one level strictly inside the hysteresis band stays closed. -/
theorem gate_schmitt_witness :
    runGate false [((3 : ℚ), (5 : ℚ), (2 : ℚ))] = false :=
  (gate_schmitt false [((3 : ℚ), (5 : ℚ), (2 : ℚ))]
    (by intro t ht; simp at ht; rw [ht]; norm_num)).1

/--
C4: for any raw harmony target within reach of the table (distance to the
shared root 36 below the 1000 sentinel, true of every reachable target)
the quantizer returns a candidate of minimal absolute distance among all
75 candidates, the first such in ascending octave then ascending degree
order, and the added interval is 7 semitones for scale indices at least 3
and 4 semitones otherwise.
-/
theorem harmony_quantize_nearest (s : Fin 6) (m : ℚ)
    (h : |rawHarm s m - 36| < 1000) :
    intervalFor s = (if 3 ≤ (s : ℕ) then (7 : ℚ) else 4) ∧
    quantSearch (rawHarm s m) s ∈ candidates s ∧
    (∀ c ∈ candidates s,
      |rawHarm s m - quantSearch (rawHarm s m) s| ≤ |rawHarm s m - c|) ∧
    ∃ l1 l2, candidates s = l1 ++ quantSearch (rawHarm s m) s :: l2 ∧
      ∀ y ∈ l1, |rawHarm s m - quantSearch (rawHarm s m) s| < |rawHarm s m - y| := by
  set raw := rawHarm s m with hraw
  have h36 : (36 : ℚ) ∈ candidates s := by
    have h0 := mem_candidates s 0 0
    simpa [scales_zero] using h0
  rcases selFold_spec (fun c => |raw - c|) (candidates s) (scales s 0) 1000 with
    ⟨heq, hall⟩ | ⟨hlt, ⟨l1, l2, hsplit, hpre⟩, hval, hall⟩
  · exact absurd h (not_lt.mpr (hall 36 h36))
  · refine ⟨rfl, ?_, ?_, ?_⟩
    · unfold quantSearch
      have hx : ((candidates s).foldl (selStep fun c => |raw - c|) (scales s 0, 1000)).1 ∈
          l1 ++ ((candidates s).foldl (selStep fun c => |raw - c|) (scales s 0, 1000)).1 :: l2 :=
        List.mem_append.mpr (Or.inr (List.mem_cons_self _ _))
      rw [← hsplit] at hx
      exact hx
    · intro c hc
      have hc2 := hall c hc
      unfold quantSearch
      rw [← hval]
      exact hc2
    · refine ⟨l1, l2, ?_, ?_⟩
      · unfold quantSearch
        exact hsplit
      · intro y hy
        unfold quantSearch
        rw [← hval]
        exact hpre y hy

/-- Witness for C4: the major-third interval and the nearest-candidate property at scale 0, input MIDI 50. -/
theorem harmony_quantize_nearest_witness :
    |rawHarm 0 50 - 36| < 1000 ∧
    (intervalFor 0 = (if 3 ≤ ((0 : Fin 6) : ℕ) then (7 : ℚ) else 4) ∧
     quantSearch (rawHarm 0 50) 0 ∈ candidates 0 ∧
     (∀ c ∈ candidates 0,
       |rawHarm 0 50 - quantSearch (rawHarm 0 50) 0| ≤ |rawHarm 0 50 - c|) ∧
     ∃ l1 l2, candidates 0 = l1 ++ quantSearch (rawHarm 0 50) 0 :: l2 ∧
       ∀ y ∈ l1, |rawHarm 0 50 - quantSearch (rawHarm 0 50) 0| < |rawHarm 0 50 - y|) :=
  ⟨by norm_num [rawHarm, intervalFor, abs], harmony_quantize_nearest 0 50
    (by norm_num [rawHarm, intervalFor, abs])⟩

/--
C5: the nearest-entry search is idempotent on its own output: any value of
the form scales[s][n] + oct * 12 with n below 15 and oct below 5 is
returned unchanged by the search.
-/
theorem quantSearch_idem (s : Fin 6) (n : Fin 15) (oct : Fin 5) :
    quantSearch (scales s n + ((oct : ℕ) : ℚ) * 12) s =
      scales s n + ((oct : ℕ) : ℚ) * 12 := by
  set v := scales s n + ((oct : ℕ) : ℚ) * 12 with hv
  have hmem : v ∈ candidates s := mem_candidates s n oct
  rcases selFold_spec (fun c => |v - c|) (candidates s) (scales s 0) 1000 with
    ⟨heq, hall⟩ | ⟨hlt, hsp, hval, hall⟩
  · have hc := hall v hmem
    norm_num at hc
  · have h0 : ((candidates s).foldl (selStep fun c => |v - c|) (scales s 0, 1000)).2 ≤ 0 := by
      simpa using hall v hmem
    have h1 : |v - ((candidates s).foldl (selStep fun c => |v - c|) (scales s 0, 1000)).1| = 0 :=
      le_antisymm (hval ▸ h0) (abs_nonneg _)
    unfold quantSearch
    exact (sub_eq_zero.mp (abs_eq_zero.mp h1)).symm

/--
C6: for every sequence of raw gate-knob readings, zero included, the
on-threshold 0.05 * smooth_gate^2 computed from the smoothed knob is
strictly greater than the off-threshold (half of it), because the
smoothed value stays strictly positive from its initial 0.1 under exact
arithmetic.
-/
theorem gate_thresholds_strict (knobs : List ℚ) :
    gateThreshOff (gateThreshOn (runSmoothGate knobs)) <
      gateThreshOn (runSmoothGate knobs) := by
  have hpos : ∀ (ks : List ℚ) (s : ℚ), 0 < s → 0 < ks.foldl smoothStep s := by
    intro ks
    induction ks with
    | nil => intro s hs; exact hs
    | cons k t ih =>
      intro s hs
      rw [List.foldl_cons]
      apply ih
      unfold smoothStep clamp01
      have h0 : (0 : ℚ) ≤ max 0 (min 1 k) := le_max_left _ _
      linarith
  have hg : 0 < runSmoothGate knobs := hpos knobs (1/10) (by norm_num)
  unfold gateThreshOn gateThreshOff
  nlinarith

/--
C7: the committed target pitch is replaced by the quantized candidate only
when the candidate differs from it by more than half a semitone while the
gate is open and certainty exceeds 0.85; whenever the difference is at
most half a semitone, or the gate is closed, or certainty is at most
0.85, the committed target is left exactly unchanged.
-/
theorem target_update_rule (gateOpen : Bool) (certainty inputMidi lastTarget : ℚ)
    (s : Fin 6) :
    ((gateOpen = false ∨ certainty ≤ 17/20 ∨
        |quantSearch (rawHarm s inputMidi) s - lastTarget| ≤ 1/2) →
      targetStep gateOpen certainty inputMidi lastTarget s = lastTarget) ∧
    (targetStep gateOpen certainty inputMidi lastTarget s ≠ lastTarget →
      gateOpen = true ∧ 17/20 < certainty ∧
      1/2 < |quantSearch (rawHarm s inputMidi) s - lastTarget| ∧
      targetStep gateOpen certainty inputMidi lastTarget s =
        quantSearch (rawHarm s inputMidi) s) := by
  unfold targetStep
  constructor
  · intro hor
    split_ifs with h1 h2
    · rcases hor with hg | hc | hd
      · rw [hg] at h1
        exact absurd h1.2 (by simp)
      · exact absurd h1.1 (not_lt.mpr hc)
      · exact absurd h2 (not_lt.mpr hd)
    · rfl
    · rfl
  · intro h
    split_ifs at h ⊢ with h1 h2
    · exact ⟨h1.2, h1.1, h2, rfl⟩
    · exact absurd rfl h
    · exact absurd rfl h

/-- Witness for C7: with the gate closed the committed target is unchanged. -/
theorem target_update_rule_witness :
    targetStep false 0 60 60 0 = 60 :=
  (target_update_rule false 0 60 60 0).1 (Or.inl rfl)

/--
C8 counterexample: at the fixed distance 0.9999 both the 0 to 1 attack
step and the 1 to 0 release step first come within that distance after
exactly one sample (attack distance 1 then 0.99, release distance 1 then
0.9999), so the attack sample-count is not strictly smaller there.
-/
theorem vca_counts_tie :
    |attackGain 1 - 1| ≤ 9999/10000 ∧ ¬(|attackGain 0 - 1| ≤ 9999/10000) ∧
    |releaseGain 1| ≤ 9999/10000 ∧ ¬(|releaseGain 0| ≤ 9999/10000) := by
  norm_num [attackGain, releaseGain, vcaStep, abs]

/--
C8 (amended): for every fixed distance d with 0 < d < 0.9999 the number
of samples the VCA gain needs to come within d of the target on a 0 to 1
step is strictly smaller than on a 1 to 0 step (attack slew 0.01 versus
release slew 0.0001); at d = 0.9999 the two counts tie at one sample.
-/
theorem vca_attack_strictly_faster (d : ℚ) (hd0 : 0 < d) (hd1 : d < 9999/10000) :
    ∃ na nr : ℕ,
      |attackGain na - 1| ≤ d ∧ (∀ k < na, d < |attackGain k - 1|) ∧
      |releaseGain nr| ≤ d ∧ (∀ k < nr, d < |releaseGain k|) ∧ na < nr := by
  have hexR : ∃ n : ℕ, |releaseGain n| ≤ d := by
    obtain ⟨n, hn⟩ := exists_pow_lt_of_lt_one hd0 (show (9999 : ℚ)/10000 < 1 by norm_num)
    refine ⟨n, ?_⟩
    rcases releaseGain_cases n with ⟨h, _⟩ | ⟨h, _⟩
    · rw [h, abs_of_pos (by positivity)]
      exact le_of_lt hn
    · rw [h]
      simpa using le_of_lt hd0
  have hnrspec : |releaseGain (Nat.find hexR)| ≤ d := Nat.find_spec hexR
  have hnrmin : ∀ k < Nat.find hexR, d < |releaseGain k| := fun k hk =>
    not_le.mp (Nat.find_min hexR hk)
  have hr0 : ¬ (|releaseGain 0| ≤ d) := by
    norm_num [releaseGain]
    linarith
  have hr1 : ¬ (|releaseGain 1| ≤ d) := by
    have h1 : releaseGain 1 = 9999/10000 := by norm_num [releaseGain, vcaStep, abs]
    rw [h1, abs_of_pos (by norm_num)]
    linarith
  have hnr2 : 2 ≤ Nat.find hexR := by
    rcases Nat.lt_or_ge (Nat.find hexR) 2 with hcon | hok
    · exfalso
      have h01 : Nat.find hexR = 0 ∨ Nat.find hexR = 1 := by omega
      rcases h01 with h | h <;> rw [h] at hnrspec
      · exact hr0 hnrspec
      · exact hr1 hnrspec
    · exact hok
  have hA : |attackGain (Nat.find hexR - 1) - 1| ≤ d := by
    rcases attackGain_cases (Nat.find hexR - 1) with h | ⟨h, hp⟩
    · rw [h]
      simpa using le_of_lt hd0
    · have habs : |attackGain (Nat.find hexR - 1) - 1| = (99/100 : ℚ) ^ (Nat.find hexR - 1) := by
        rw [h, show (1 : ℚ) - (99/100 : ℚ) ^ (Nat.find hexR - 1) - 1 =
          -((99/100 : ℚ) ^ (Nat.find hexR - 1)) by ring, abs_neg, abs_of_pos (by positivity)]
      rw [habs]
      rcases releaseGain_cases (Nat.find hexR) with ⟨hr, hrp⟩ | ⟨hr, j, hj, hjlt⟩
      · have hrd : (9999/10000 : ℚ) ^ (Nat.find hexR) ≤ d := by
          rw [hr, abs_of_pos (by positivity)] at hnrspec
          exact hnrspec
        have hkey : (99/100 : ℚ) ^ (Nat.find hexR - 1) ≤
            (9999/10000 : ℚ) ^ (Nat.find hexR) := by
          obtain ⟨k, hk⟩ : ∃ k, Nat.find hexR = k + 2 := ⟨Nat.find hexR - 2, by omega⟩
          rw [hk, show k + 2 - 1 = k + 1 by omega]
          exact pow_99_le k
        linarith
      · exfalso
        have hj2 : 2 ≤ j := by
          by_contra hcon
          push_neg at hcon
          interval_cases j <;> norm_num at hjlt
        have hle : (99/100 : ℚ) ^ (Nat.find hexR - 1) ≤ (99/100 : ℚ) ^ (j - 1) :=
          pow_le_pow_of_le_one (by norm_num) (by norm_num) (by omega)
        have hkey : (99/100 : ℚ) ^ (j - 1) ≤ (9999/10000 : ℚ) ^ j := by
          obtain ⟨k, hk⟩ : ∃ k, j = k + 2 := ⟨j - 2, by omega⟩
          rw [hk, show k + 2 - 1 = k + 1 by omega]
          exact pow_99_le k
        linarith
  have hexA : ∃ n : ℕ, |attackGain n - 1| ≤ d := ⟨Nat.find hexR - 1, hA⟩
  refine ⟨Nat.find hexA, Nat.find hexR, Nat.find_spec hexA,
    (fun k hk => not_le.mp (Nat.find_min hexA hk)), hnrspec, hnrmin, ?_⟩
  have hle : Nat.find hexA ≤ Nat.find hexR - 1 := Nat.find_min' hexA hA
  omega

/-- Witness for C8: at distance one half the attack converges in strictly fewer samples than the release. -/
theorem vca_attack_strictly_faster_witness :
    (0 : ℚ) < 1/2 ∧ (1/2 : ℚ) < 9999/10000 ∧
    (∃ na nr : ℕ,
      |attackGain na - 1| ≤ 1/2 ∧ (∀ k < na, 1/2 < |attackGain k - 1|) ∧
      |releaseGain nr| ≤ 1/2 ∧ (∀ k < nr, 1/2 < |releaseGain k|) ∧ na < nr) :=
  ⟨by norm_num, by norm_num,
    vca_attack_strictly_faster (1/2) (by norm_num) (by norm_num)⟩

/--
C9: for every raw scale-knob reading the computed scale index, the
truncation of the clamped reading times 5.99, lies between 0 and 5, so
indexing the 6-row scale table with it (and any degree below 15) is in
bounds.
-/
theorem scale_index_in_bounds (knob : ℚ) :
    0 ≤ scaleIdxOf knob ∧ scaleIdxOf knob < 6 ∧ (scaleIdxOf knob).toNat < 6 := by
  unfold scaleIdxOf clamp01
  have h0 : (0 : ℚ) ≤ max 0 (min 1 knob) := le_max_left _ _
  have h1 : max 0 (min 1 knob) ≤ 1 := max_le (by norm_num) (min_le_left _ _)
  have hlo : 0 ≤ ⌊max 0 (min 1 knob) * (599/100)⌋ := by
    apply Int.le_floor.mpr
    push_cast
    positivity
  have hhi : ⌊max 0 (min 1 knob) * (599/100)⌋ < 6 := by
    apply Int.floor_lt.mpr
    push_cast
    nlinarith
  exact ⟨hlo, hhi, by omega⟩

/--
C10: the dry component of the output equals the raw input times
(1 - mix) for every gate state and every VCA gain: subtracting the
harmony term (harmony signal times the updated VCA gain times mix) from
the left output leaves exactly input * (1 - mix), and the right channel
equals the left.
-/
theorem dry_path_unaffected (input harmSig env mix curVca : ℚ)
    (confident gateOpen : Bool) :
    (outputStage input harmSig env mix curVca confident gateOpen).2.1 -
        harmSig * (outputStage input harmSig env mix curVca confident gateOpen).1 * mix =
      input * (1 - mix) ∧
    (outputStage input harmSig env mix curVca confident gateOpen).2.2 =
      (outputStage input harmSig env mix curVca confident gateOpen).2.1 := by
  unfold outputStage
  constructor
  · ring
  · rfl
